import Mathlib

/-!
Verification development for the rule-algebra core in src/rule.rs of the
grammer repository.  The Rust definitions are embedded shallowly:

* `Rule`, `SepKind`, `MaybeKnown`, `RuleWithNamedFields` mirror the data
  model; `Rc` sharing is dropped because the Rust code falls back to
  structural equality/hashing everywhere sharing is absent, so the cache
  and all comparisons are modelled with structural equality.
* `IndexMap`/`IndexSet` values are modelled as insertion-ordered
  association lists / ordered duplicate-free lists, with operations
  (`mapInsert`, `entryExtend`, `setExtend`, ...) mirroring the indexmap
  crate semantics used by the source.
* Rust panics (`assert!`, `unimplemented!`, out-of-range indexing) are
  modelled by `Option`-valued functions returning `none`.
* `can_be_empty`'s recursion terminates in Rust through the cache; the
  embedding adds an explicit fuel parameter, decremented once per cache
  miss, and returns `none` on fuel exhaustion.
-/

namespace Grammer

/-- Three-valued result (src/rule.rs `MaybeKnown<T>`). -/
inductive MaybeKnown (α : Type) : Type
  | Known : α → MaybeKnown α
  | Unknown : MaybeKnown α
deriving DecidableEq

/-- Separator kind (src/rule.rs `SepKind`). -/
inductive SepKind : Type
  | Simple
  | Trailing
deriving DecidableEq

/-- The rule tree (src/rule.rs `Rule<Pat>`). `Concat([Rc<Rule>; 2])` is
embedded with two explicit children; `Or(Vec<Rc<Rule>>)` with a list. -/
inductive Rule (Pat : Type) : Type
  | Empty : Rule Pat
  | Eat : Pat → Rule Pat
  | Call : String → Rule Pat
  | Concat : Rule Pat → Rule Pat → Rule Pat
  | Or : List (Rule Pat) → Rule Pat
  | Opt : Rule Pat → Rule Pat
  | RepeatMany : Rule Pat → Option (Rule Pat × SepKind) → Rule Pat
  | RepeatMore : Rule Pat → Option (Rule Pat × SepKind) → Rule Pat

-- Structural equality test on rule trees (the `PartialEq`/`Eq` derive on
-- `Rule<Pat>`); spelled out because the type nests through `List`/`Option`.
mutual

def beqRule [DecidableEq Pat] : Rule Pat → Rule Pat → Bool
  | .Empty, .Empty => true
  | .Eat p, .Eat q => p = q
  | .Call m, .Call n => m = n
  | .Concat l r, .Concat l' r' => beqRule l l' && beqRule r r'
  | .Or xs, .Or ys => beqRuleList xs ys
  | .Opt x, .Opt y => beqRule x y
  | .RepeatMany e s, .RepeatMany e' s' => beqRule e e' && beqRuleSep s s'
  | .RepeatMore e s, .RepeatMore e' s' => beqRule e e' && beqRuleSep s s'
  | _, _ => false

def beqRuleList [DecidableEq Pat] : List (Rule Pat) → List (Rule Pat) → Bool
  | [], [] => true
  | x :: xs, y :: ys => beqRule x y && beqRuleList xs ys
  | _, _ => false

def beqRuleSep [DecidableEq Pat] :
    Option (Rule Pat × SepKind) → Option (Rule Pat × SepKind) → Bool
  | none, none => true
  | some (s, k), some (s', k') => beqRule s s' && k = k'
  | _, _ => false

end

theorem beqRule_iff_eq [DecidableEq Pat] :
    ∀ a b : Rule Pat, beqRule a b = true ↔ a = b :=
  fun a b =>
    beqRule.induct
      (fun a b => beqRule a b = true ↔ a = b)
      (fun s s' => beqRuleSep s s' = true ↔ s = s')
      (fun xs ys => beqRuleList xs ys = true ↔ xs = ys)
      (by simp [beqRule])
      (by intro p q; simp [beqRule])
      (by intro m n; simp [beqRule])
      (by intro l r l' r' ih1 ih2; simp [beqRule, ih1, ih2])
      (by intro xs ys ih; simpa [beqRule] using ih)
      (by intro x y ih; simp [beqRule, ih])
      (by intro e s e' s' ih1 ih2; simp [beqRule, ih1, ih2])
      (by intro e s e' s' ih1 ih2; simp [beqRule, ih1, ih2])
      (by
        intro t x h1 h2 h3 h4 h5 h6 h7 h8
        cases t <;> cases x <;>
          first
            | exact (h1 rfl rfl).elim
            | exact (h2 _ _ rfl rfl).elim
            | exact (h3 _ _ rfl rfl).elim
            | exact (h4 _ _ _ _ rfl rfl).elim
            | exact (h5 _ _ rfl rfl).elim
            | exact (h6 _ _ rfl rfl).elim
            | exact (h7 _ _ _ _ rfl rfl).elim
            | exact (h8 _ _ _ _ rfl rfl).elim
            | simp [beqRule])
      (by simp [beqRuleList])
      (by intro x xs y ys ih1 ih2; simp [beqRuleList, ih1, ih2])
      (by
        intro t x h1 h2
        cases t <;> cases x <;>
          first
            | exact (h1 rfl rfl).elim
            | exact (h2 _ _ _ _ rfl rfl).elim
            | simp [beqRuleList])
      (by simp [beqRuleSep])
      (by intro s k s' k' ih; simp [beqRuleSep, ih])
      (by
        intro t x h1 h2
        match t, x with
        | none, none => exact (h1 rfl rfl).elim
        | none, some (s, k) => simp [beqRuleSep]
        | some (s, k), none => simp [beqRuleSep]
        | some (s, k), some (s', k') => exact (h2 _ _ _ _ rfl rfl).elim)
      a b

instance [DecidableEq Pat] : DecidableEq (Rule Pat) :=
  fun a b => decidable_of_iff _ (beqRule_iff_eq a b)

/-- A field path: sequence of descent indices (`Vec<usize>`). -/
abbrev Path : Type := List Nat

/-- A field's path set (`IndexSet<Vec<usize>>`): insertion-ordered,
duplicate-free list. -/
abbrev PathSet : Type := List Path

/-- The field mapping (`IndexMap<String, IndexSet<Vec<usize>>>`):
insertion-ordered association list with unique keys. -/
abbrev Fields : Type := List (String × PathSet)

/-- `IndexSet::insert`: append if absent, keep position otherwise. -/
def setInsert (s : PathSet) (p : Path) : PathSet :=
  if p ∈ s then s else s ++ [p]

/-- `IndexSet::extend`: insert each element in order. -/
def setExtend (s : PathSet) (t : PathSet) : PathSet :=
  t.foldl setInsert s

/-- Ordered-map lookup (`IndexMap::get` / `get_index` of the first hit). -/
def assocLookup (l : List (String × α)) (k : String) : Option α :=
  match l with
  | [] => none
  | e :: rest => if e.1 = k then some e.2 else assocLookup rest k

/-- `IndexMap::contains_key`. -/
def hasKeyF (f : Fields) (n : String) : Bool :=
  match f with
  | [] => false
  | e :: rest => if e.1 = n then true else hasKeyF rest n

/-- `IndexMap::insert`: replace the value in place when the key exists,
append otherwise. -/
def mapInsert (f : Fields) (n : String) (v : PathSet) : Fields :=
  if hasKeyF f n then f.map (fun e => if e.1 = n then (n, v) else e)
  else f ++ [(n, v)]

/-- `fields.entry(n).or_insert_with(IndexSet::new).extend(ps)`. -/
def entryExtend (f : Fields) (n : String) (ps : PathSet) : Fields :=
  if hasKeyF f n then f.map (fun e => if e.1 = n then (n, setExtend e.2 ps) else e)
  else f ++ [(n, setExtend [] ps)]

/-- `IndexMap::extend`: insert every entry of the second map in order. -/
def fieldsExtend (f g : Fields) : Fields :=
  g.foldl (fun acc e => mapInsert acc e.1 e.2) f

/-- Prepend index `k` to every path of every field
(`paths.map(|mut path| path.insert(0, k))`, collected back into sets;
prepending is injective, so collecting loses nothing). -/
def prependToFields (k : Nat) (f : Fields) : Fields :=
  f.map (fun e => (e.1, e.2.map (fun p => k :: p)))

/-- A rule together with its named-field mapping
(src/rule.rs `RuleWithNamedFields<Pat>`). -/
structure RuleWithNamedFields (Pat : Type) : Type where
  rule : Rule Pat
  fields : Fields
deriving DecidableEq

/-- src/rule.rs `empty()`. -/
def empty : RuleWithNamedFields Pat :=
  ⟨Rule.Empty, []⟩

/-- src/rule.rs `eat(pat)` (the `Into` conversion is dropped). -/
def eat (pat : Pat) : RuleWithNamedFields Pat :=
  ⟨Rule.Eat pat, []⟩

/-- src/rule.rs `call(name)`. -/
def call (name : String) : RuleWithNamedFields Pat :=
  ⟨Rule.Call name, []⟩

/-- src/rule.rs `RuleWithNamedFields::field`.  The `unimplemented!()` arm
for repetitions over shapes other than `Eat`/`Call` is modelled by
`none`. -/
def RuleWithNamedFields.field (x : RuleWithNamedFields Pat) (name : String) :
    Option (RuleWithNamedFields Pat) :=
  let path? : Option Path :=
    match x.rule with
    | .RepeatMany r _ =>
      match r with
      | .Eat _ => some []
      | .Call _ => some []
      | _ => none
    | .RepeatMore r _ =>
      match r with
      | .Eat _ => some []
      | .Call _ => some []
      | _ => none
    | .Opt _ => some [0]
    | _ => some []
  match path? with
  | none => none
  | some path => some ⟨x.rule, mapInsert x.fields name [path]⟩

/-- src/rule.rs `RuleWithNamedFields::opt`. -/
def RuleWithNamedFields.opt (x : RuleWithNamedFields Pat) :
    RuleWithNamedFields Pat :=
  ⟨Rule.Opt x.rule, prependToFields 0 x.fields⟩

/-- src/rule.rs `RuleWithNamedFields::repeat_many`; the
`assert!(sep.fields.is_empty())` is modelled by `none`. -/
def RuleWithNamedFields.repeat_many (x : RuleWithNamedFields Pat)
    (sep : Option (RuleWithNamedFields Pat × SepKind)) :
    Option (RuleWithNamedFields Pat) :=
  let fields' := prependToFields 0 x.fields
  match sep with
  | none => some ⟨Rule.RepeatMany x.rule none, fields'⟩
  | some (s, k) =>
    if s.fields = [] then some ⟨Rule.RepeatMany x.rule (some (s.rule, k)), fields'⟩
    else none

/-- src/rule.rs `RuleWithNamedFields::repeat_more`; the
`assert!(sep.fields.is_empty())` is modelled by `none`. -/
def RuleWithNamedFields.repeat_more (x : RuleWithNamedFields Pat)
    (sep : Option (RuleWithNamedFields Pat × SepKind)) :
    Option (RuleWithNamedFields Pat) :=
  let fields' := prependToFields 0 x.fields
  match sep with
  | none => some ⟨Rule.RepeatMore x.rule none, fields'⟩
  | some (s, k) =>
    if s.fields = [] then some ⟨Rule.RepeatMore x.rule (some (s.rule, k)), fields'⟩
    else none

/-- `x.rule` is syntactically `Rule::Empty` and `x.fields` is empty: the
guard of the two identity arms of `Add::add`. -/
def isEmptyFieldless (x : RuleWithNamedFields Pat) : Bool :=
  (match x.rule with
   | .Empty => true
   | _ => false) && x.fields.isEmpty

/-- The loop of `Add::add` over the right operand's fields: each name is
asserted fresh (`assert!(!self.fields.contains_key(..))`, modelled by
`none`) and inserted with its paths prefixed by `1`. -/
def addLoop (acc : Fields) : Fields → Option Fields
  | [] => some acc
  | e :: rest =>
    if hasKeyF acc e.1 then none
    else addLoop (mapInsert acc e.1 (e.2.map (fun p => 1 :: p))) rest

/-- src/rule.rs `impl Add for RuleWithNamedFields` (`operator +`);
the duplicate-field `assert!` is modelled by `none`. -/
def add (a b : RuleWithNamedFields Pat) : Option (RuleWithNamedFields Pat) :=
  if isEmptyFieldless a then some b
  else if isEmptyFieldless b then some a
  else
    match addLoop (prependToFields 0 a.fields) b.fields with
    | none => none
    | some f => some ⟨Rule.Concat a.rule b.rule, f⟩

/-- The loop of `BitOr::bitor`: merge one alternative's fields into the
accumulated mapping, prefixing every path with the alternative's index. -/
def bitorAddAlt (fields : Fields) (k : Nat) (alt : RuleWithNamedFields Pat) :
    Fields :=
  alt.fields.foldl (fun acc e => entryExtend acc e.1 (e.2.map (fun p => k :: p))) fields

/-- src/rule.rs `impl BitOr for RuleWithNamedFields` (`operator |`). -/
def bitor (a b : RuleWithNamedFields Pat) : RuleWithNamedFields Pat :=
  match a.rule with
  | .Or rules => ⟨Rule.Or (rules ++ [b.rule]), bitorAddAlt a.fields rules.length b⟩
  | _ => ⟨Rule.Or [a.rule, b.rule], bitorAddAlt (bitorAddAlt [] 0 a) 1 b⟩

/-- src/rule.rs `Rule::field_is_refutable`.  The panics — `path[0]` on an
empty path and `rules[path[0]]` with an index other than 0/1 at a
`Concat` — are modelled by `none`. -/
def fieldIsRefutable : Rule Pat → Path → Option Bool
  | .Empty, _ => some false
  | .Eat _, _ => some false
  | .Call _, _ => some false
  | .RepeatMany _ _, _ => some false
  | .RepeatMore _ _, _ => some false
  | .Concat l r, path =>
    match path with
    | [] => none
    | 0 :: rest => fieldIsRefutable l rest
    | 1 :: rest => fieldIsRefutable r rest
    | _ :: _ => none
  | .Or _, _ => some true
  | .Opt _, _ => some true

/-- src/rule.rs `Rule::field_pathset_is_refutable`.  The
`paths.get_index(0).unwrap()` panic on an empty set is modelled by
`none`. -/
def fieldPathsetIsRefutable (r : Rule Pat) (paths : PathSet) : Option Bool :=
  if paths.length > 1 then some true
  else
    match paths.head? with
    | none => none
    | some p => fieldIsRefutable r p

/-- `impl BitOr for MaybeKnown<bool>` (logical OR, `Known(true)` absorbs). -/
def mOr : MaybeKnown Bool → MaybeKnown Bool → MaybeKnown Bool
  | .Known true, _ => .Known true
  | _, .Known true => .Known true
  | .Known false, x => x
  | x, .Known false => x
  | .Unknown, .Unknown => .Unknown

/-- `impl BitAnd for MaybeKnown<bool>` (logical AND, `Known(false)` absorbs). -/
def mAnd : MaybeKnown Bool → MaybeKnown Bool → MaybeKnown Bool
  | .Known false, _ => .Known false
  | _, .Known false => .Known false
  | .Known true, x => x
  | x, .Known true => x
  | .Unknown, .Unknown => .Unknown

/-- src/rule.rs trait `MatchesEmpty` (the terminal-pattern capability). -/
class MatchesEmpty (Pat : Type) : Type where
  matches_empty : Pat → MaybeKnown Bool

/-- The nullability cache (`HashMap<Rc<Rule<Pat>>, MaybeKnown<bool>>`),
keyed by structural equality. -/
abbrev Cache (Pat : Type) : Type := List (Rule Pat × MaybeKnown Bool)

/-- `HashMap` lookup by structural key equality. -/
def lookupCache [DecidableEq Pat] (c : Cache Pat) (r : Rule Pat) :
    Option (MaybeKnown Bool) :=
  match c with
  | [] => none
  | e :: rest => if e.1 = r then some e.2 else lookupCache rest r

/-- `*cache.get_mut(self).unwrap() = v`: overwrite the entry for `r`. -/
def setCache [DecidableEq Pat] (c : Cache Pat) (r : Rule Pat)
    (v : MaybeKnown Bool) : Cache Pat :=
  c.map (fun e => if e.1 = r then (r, v) else e)

/-- `cache.remove(self)`: drop the entry for `r`. -/
def removeCache [DecidableEq Pat] (c : Cache Pat) (r : Rule Pat) : Cache Pat :=
  c.filter (fun e => if e.1 = r then false else true)

/-- Modelled from the spec: the grammar name-resolution context
(`crate::Grammar<Pat>`) is not part of src/; per spec section 6 it is "an
ordered mapping from rule name to its defining RuleWithNamedFields",
read by `Call` resolution (`grammar.rules[rule]`) and the validators
(`grammar.rules.contains_key(rule)`). -/
structure Grammar (Pat : Type) : Type where
  rules : List (String × RuleWithNamedFields Pat)

/-- The fold inside `can_be_empty_uncached` for `Rule::Or`: OR across all
alternatives, seeded `Known(false)`, threading the cache. -/
def orFoldAux (step : Cache Pat → Rule Pat → Option (MaybeKnown Bool × Cache Pat)) :
    MaybeKnown Bool → Cache Pat → List (Rule Pat) →
    Option (MaybeKnown Bool × Cache Pat)
  | prev, c, [] => some (prev, c)
  | prev, c, r :: rest =>
    match step c r with
    | none => none
    | some (v, c') => orFoldAux step (mOr prev v) c' rest

/-- src/rule.rs `Rule::can_be_empty_uncached`, with the recursive
`can_be_empty` calls abstracted as `rec` (tied back with one unit of fuel
in `canBeEmpty`).  A `Call` to a name missing from the grammar panics in
Rust (`grammar.rules[rule]`); modelled by `none`. -/
def canBeEmptyUncached [DecidableEq Pat] [MatchesEmpty Pat] (g : Grammar Pat)
    (rec : Cache Pat → Rule Pat → Option (MaybeKnown Bool × Cache Pat))
    (cache : Cache Pat) (r : Rule Pat) :
    Option (MaybeKnown Bool × Cache Pat) :=
  match r with
  | .Empty => some (.Known true, cache)
  | .Opt _ => some (.Known true, cache)
  | .RepeatMany _ _ => some (.Known true, cache)
  | .Eat p => some (MatchesEmpty.matches_empty p, cache)
  | .Call name =>
    match assocLookup g.rules name with
    | some rwf => rec cache rwf.rule
    | none => none
  | .Concat left right =>
    match rec cache left with
    | none => none
    | some (a, c1) =>
      match rec c1 right with
      | none => none
      | some (b, c2) => some (mAnd a b, c2)
  | .Or rules => orFoldAux rec (.Known false) cache rules
  | .RepeatMore elem _ => rec cache elem

/-- src/rule.rs `can_be_empty` (the `RcRuleMethods` impl): return a cached
value immediately; otherwise insert `Unknown` before recursing, then
overwrite with a `Known` result or remove the `Unknown` entry.  Fuel is
decremented once per cache miss; `none` means fuel ran out. -/
def canBeEmpty [DecidableEq Pat] [MatchesEmpty Pat] (g : Grammar Pat) :
    Nat → Cache Pat → Rule Pat → Option (MaybeKnown Bool × Cache Pat)
  | 0, _, _ => none
  | fuel + 1, cache, r =>
    match lookupCache cache r with
    | some v => some (v, cache)
    | none =>
      match canBeEmptyUncached g (fun c r' => canBeEmpty g fuel c r')
          ((r, MaybeKnown.Unknown) :: cache) r with
      | none => none
      | some (res, c2) =>
        match res with
        | .Known b => some (res, setCache c2 r (.Known b))
        | .Unknown => some (res, removeCache c2 r)

/-- A concrete terminal-pattern type for tests: an identifier plus a fixed
`matches_empty` answer. -/
structure TPat : Type where
  id : Nat
  me : MaybeKnown Bool
deriving DecidableEq

instance : MatchesEmpty TPat := ⟨fun p => p.me⟩

/-- A pattern that can never match empty input. -/
def pNever : TPat := ⟨0, .Known false⟩

/-- A pattern that can match empty input. -/
def pAlways : TPat := ⟨1, .Known true⟩

/-- Grammar with the self-recursive rule `R = R | Empty`. -/
def gSelfOr : Grammar TPat :=
  ⟨[("R", ⟨Rule.Or [Rule.Call "R", Rule.Empty], []⟩)]⟩

/-- Grammar with the rule `R = eat(p) + R`, `p` never empty. -/
def gSelfConcat : Grammar TPat :=
  ⟨[("R", ⟨Rule.Concat (Rule.Eat pNever) (Rule.Call "R"), []⟩)]⟩

/-- C1: for the grammar with the self-recursive rule `R = R | Empty`,
`can_be_empty` on `R` terminates (here: completes within 10 units of fuel,
one unit per cache miss, instead of recursing forever) and returns
`Known(true)`, whether queried through the rule body or through
`Call("R")`; for the grammar with `R = eat(p) + R` where `p.matches_empty`
is `Known(false)`, it terminates and returns `Known(false)`. -/
theorem c1_nullability_fixed_point_termination :
    ((canBeEmpty gSelfOr 10 [] (Rule.Or [Rule.Call "R", Rule.Empty])).map Prod.fst
        = some (.Known true)
      ∧ (canBeEmpty gSelfOr 10 [] (Rule.Call "R")).map Prod.fst
        = some (.Known true))
    ∧ ((canBeEmpty gSelfConcat 10 []
          (Rule.Concat (Rule.Eat pNever) (Rule.Call "R"))).map Prod.fst
        = some (.Known false)
      ∧ (canBeEmpty gSelfConcat 10 [] (Rule.Call "R")).map Prod.fst
        = some (.Known false)) := by
  exact ⟨⟨by decide, by decide⟩, ⟨by decide, by decide⟩⟩

/-- C6: concatenating with an operand whose rule is `Empty` and whose field
mapping is empty is an identity on either side: the other operand is
returned unchanged (same rule tree, no `Concat` wrapper, same field
mapping).  In particular `empty() + x = x` and `x + empty() = x`. -/
theorem c6_concat_identity {Pat : Type} (e x : RuleWithNamedFields Pat)
    (he : e.rule = Rule.Empty) (hf : e.fields = []) :
    add e x = some x ∧ add x e = some x := by
  have he' : isEmptyFieldless e = true := by
    simp [isEmptyFieldless, he, hf]
  refine ⟨by simp [add, he'], ?_⟩
  by_cases hx : isEmptyFieldless x = true
  · obtain ⟨h1, hxf⟩ : (match x.rule with
        | Rule.Empty => true
        | _ => false) = true ∧ x.fields = [] := by
      simpa [isEmptyFieldless] using hx
    have hxr : x.rule = Rule.Empty := by
      cases hr : x.rule <;> rw [hr] at h1 <;> simp_all
    have hex : e = x := by
      cases e; cases x; simp_all
    simp [add, hx, hex]
  · simp [add, hx, he']

/-- Witness for C6 at `e = empty()`, `x = eat(pNever)`. -/
theorem c6_concat_identity_witness :
    add (empty : RuleWithNamedFields TPat) (eat pNever) = some (eat pNever)
      ∧ add (eat pNever) empty = some (eat pNever) :=
  c6_concat_identity empty (eat pNever) rfl rfl

/-- C10: `field_pathset_is_refutable` panics (modelled as `none`) on an
empty path set, and `field_is_refutable` panics at a `Concat` node when
the remaining path is empty or its leading index exceeds 1: a non-empty
path set of valid descent sequences is a precondition of both. -/
theorem c10_refutability_preconditions {Pat : Type} :
    (∀ r : Rule Pat, fieldPathsetIsRefutable r [] = none)
    ∧ (∀ l r : Rule Pat, fieldIsRefutable (Rule.Concat l r) [] = none)
    ∧ (∀ (l r : Rule Pat) (i : Nat) (rest : Path), 2 ≤ i →
        fieldIsRefutable (Rule.Concat l r) (i :: rest) = none) := by
  refine ⟨fun r => by simp [fieldPathsetIsRefutable], fun l r => rfl, ?_⟩
  intro l r i rest hi
  match i, hi with
  | n + 2, _ => rfl

/-- Witness for C10's third part at index 2. -/
theorem c10_refutability_preconditions_witness :
    fieldIsRefutable (Rule.Concat (Rule.Empty : Rule TPat) Rule.Empty) [2]
      = none :=
  c10_refutability_preconditions.2.2 Rule.Empty Rule.Empty 2 []
    (by decide)

/-- Is the rule an `Eat` or a `Call`? (the repeated shapes `.field`
supports). -/
def isEatOrCall : Rule Pat → Bool
  | .Eat _ => true
  | .Call _ => true
  | _ => false

/-- Is the rule none of `Opt`/`RepeatMany`/`RepeatMore` (the shapes
`.field` treats specially)? -/
def isFieldDefaultShape : Rule Pat → Bool
  | .Opt _ => false
  | .RepeatMany _ _ => false
  | .RepeatMore _ _ => false
  | _ => true

/-- C9: `.field(name)` registers a singleton path set: path `[0]` when the
current rule is an `Opt`, the empty path `[]` for every other supported
shape (including repetitions over `Eat`/`Call`); for a repetition over
any other shape it fails fast (`unimplemented!()`, modelled as `none`). -/
theorem c9_field_registration {Pat : Type} :
    (∀ (x : RuleWithNamedFields Pat) (n : String) (inner : Rule Pat),
      x.rule = Rule.Opt inner →
        x.field n = some ⟨x.rule, mapInsert x.fields n [[0]]⟩)
    ∧ (∀ (x : RuleWithNamedFields Pat) (n : String) (elem : Rule Pat)
        (sep : Option (Rule Pat × SepKind)),
        (x.rule = Rule.RepeatMany elem sep ∨ x.rule = Rule.RepeatMore elem sep) →
          isEatOrCall elem = true →
            x.field n = some ⟨x.rule, mapInsert x.fields n [[]]⟩)
    ∧ (∀ (x : RuleWithNamedFields Pat) (n : String),
        isFieldDefaultShape x.rule = true →
          x.field n = some ⟨x.rule, mapInsert x.fields n [[]]⟩)
    ∧ (∀ (x : RuleWithNamedFields Pat) (n : String) (elem : Rule Pat)
        (sep : Option (Rule Pat × SepKind)),
        (x.rule = Rule.RepeatMany elem sep ∨ x.rule = Rule.RepeatMore elem sep) →
          isEatOrCall elem = false → x.field n = none) := by
  refine ⟨?_, ?_, ?_, ?_⟩
  · intro x n inner hx
    simp [RuleWithNamedFields.field, hx]
  · intro x n elem sep hx helem
    rcases hx with hx | hx <;>
      (cases elem <;> simp_all [RuleWithNamedFields.field, isEatOrCall])
  · intro x n hx
    cases hr : x.rule <;> simp_all [RuleWithNamedFields.field, isFieldDefaultShape]
  · intro x n elem sep hx helem
    rcases hx with hx | hx <;>
      (cases elem <;> simp_all [RuleWithNamedFields.field, isEatOrCall])

/-- Witness for C9: one concrete instance per case — an `Opt`, a
repetition over `Eat`, a plain `Eat`, and a repetition over `Empty`. -/
theorem c9_field_registration_witness :
    RuleWithNamedFields.field ⟨Rule.Opt (Rule.Eat pNever), []⟩ "f"
        = some ⟨Rule.Opt (Rule.Eat pNever), [("f", [[0]])]⟩
    ∧ RuleWithNamedFields.field ⟨Rule.RepeatMany (Rule.Eat pNever) none, []⟩ "f"
        = some ⟨Rule.RepeatMany (Rule.Eat pNever) none, [("f", [[]])]⟩
    ∧ RuleWithNamedFields.field (eat pNever) "f"
        = some ⟨Rule.Eat pNever, [("f", [[]])]⟩
    ∧ RuleWithNamedFields.field ⟨Rule.RepeatMore (Rule.Empty : Rule TPat) none, []⟩ "f"
        = none := by
  refine ⟨?_, ?_, ?_, ?_⟩
  · exact c9_field_registration.1 _ "f" _ rfl
  · exact c9_field_registration.2.1 _ "f" _ none (Or.inl rfl) rfl
  · exact c9_field_registration.2.2.1 (eat pNever) "f" rfl
  · exact c9_field_registration.2.2.2 _ "f" _ none (Or.inr rfl) rfl

/-- The field mapping has pairwise distinct names (an `IndexMap`
invariant). -/
def keysNodup (f : Fields) : Prop :=
  (f.map Prod.fst).Nodup

instance (f : Fields) : Decidable (keysNodup f) := by
  unfold keysNodup; infer_instance

theorem hasKeyF_iff_mem (f : Fields) (n : String) :
    hasKeyF f n = true ↔ n ∈ f.map Prod.fst := by
  induction f with
  | nil => simp [hasKeyF]
  | cons e rest ih =>
    by_cases h : e.1 = n
    · simp [hasKeyF, h]
    · simp only [hasKeyF, h, if_false, ih, List.map_cons, List.mem_cons]
      constructor
      · exact Or.inr
      · rintro (h1 | h1)
        · exact absurd h1.symm h
        · exact h1

theorem hasKeyF_append (f g : Fields) (n : String) :
    hasKeyF (f ++ g) n = (hasKeyF f n || hasKeyF g n) := by
  induction f with
  | nil => simp [hasKeyF]
  | cons e rest ih =>
    by_cases h : e.1 = n <;> simp [hasKeyF, h, ih]

theorem hasKeyF_prependToFields (k : Nat) (f : Fields) (n : String) :
    hasKeyF (prependToFields k f) n = hasKeyF f n := by
  induction f with
  | nil => rfl
  | cons e rest ih =>
    by_cases h : e.1 = n <;> simp [hasKeyF, prependToFields, h] <;>
      simpa [prependToFields] using ih

theorem addLoop_success (l : List (String × PathSet)) :
    ∀ acc : Fields, keysNodup l →
      (∀ m, hasKeyF acc m = true → hasKeyF l m = false) →
      addLoop acc l = some (acc ++ l.map (fun e => (e.1, e.2.map (fun p => 1 :: p)))) := by
  induction l with
  | nil => intro acc _ _; simp [addLoop]
  | cons e rest ih =>
    intro acc hnd hdisj
    have hkey : hasKeyF acc e.1 = false := by
      by_contra h
      have h' : hasKeyF acc e.1 = true := by
        revert h; cases hasKeyF acc e.1 <;> simp
      have hcontra := hdisj e.1 h'
      simp [hasKeyF] at hcontra
    have hnd' : keysNodup rest := by
      simpa [keysNodup] using (List.nodup_cons.mp hnd).2
    have hmem : e.1 ∉ rest.map Prod.fst := by
      simpa [keysNodup] using (List.nodup_cons.mp hnd).1
    have hins : mapInsert acc e.1 (e.2.map (fun p => 1 :: p))
        = acc ++ [(e.1, e.2.map (fun p => 1 :: p))] := by
      simp [mapInsert, hkey]
    have hdisj' : ∀ m, hasKeyF (acc ++ [(e.1, e.2.map (fun p => 1 :: p))]) m = true →
        hasKeyF rest m = false := by
      intro m hm
      rw [hasKeyF_append] at hm
      rcases Bool.or_eq_true_iff.mp hm with hm | hm
      · have := hdisj m hm
        revert this
        by_cases h : e.1 = m <;> simp [hasKeyF, h]
      · have hme : e.1 = m := by
          revert hm; by_cases h : e.1 = m <;> simp [hasKeyF, h]
        subst hme
        by_contra h
        have h' : hasKeyF rest e.1 = true := by
          revert h; cases hasKeyF rest e.1 <;> simp
        exact hmem ((hasKeyF_iff_mem _ _).mp h')
    calc addLoop acc (e :: rest)
        = addLoop (acc ++ [(e.1, e.2.map (fun p => 1 :: p))]) rest := by
          simp [addLoop, hkey, hins]
      _ = some ((acc ++ [(e.1, e.2.map (fun p => 1 :: p))])
            ++ rest.map (fun e => (e.1, e.2.map (fun p => 1 :: p)))) :=
          ih _ hnd' hdisj'
      _ = some (acc ++ (e :: rest).map (fun e => (e.1, e.2.map (fun p => 1 :: p)))) := by
          simp

theorem addLoop_none_iff (l : List (String × PathSet)) :
    ∀ acc : Fields, keysNodup l →
      (addLoop acc l = none ↔ ∃ m, hasKeyF acc m = true ∧ hasKeyF l m = true) := by
  induction l with
  | nil => intro acc _; simp [addLoop, hasKeyF]
  | cons e rest ih =>
    intro acc hnd
    have hnd' : keysNodup rest := by
      simpa [keysNodup] using (List.nodup_cons.mp hnd).2
    have hmem : e.1 ∉ rest.map Prod.fst := by
      simpa [keysNodup] using (List.nodup_cons.mp hnd).1
    by_cases hkey : hasKeyF acc e.1 = true
    · rw [show addLoop acc (e :: rest) = none from by simp [addLoop, hkey]]
      constructor
      · intro _
        exact ⟨e.1, hkey, by simp [hasKeyF]⟩
      · intro _; rfl
    · have hkey' : hasKeyF acc e.1 = false := by
        revert hkey; cases hasKeyF acc e.1 <;> simp
      have hins : mapInsert acc e.1 (e.2.map (fun p => 1 :: p))
          = acc ++ [(e.1, e.2.map (fun p => 1 :: p))] := by
        simp [mapInsert, hkey']
      have hstep : addLoop acc (e :: rest)
          = addLoop (acc ++ [(e.1, e.2.map (fun p => 1 :: p))]) rest := by
        simp [addLoop, hkey', hins]
      rw [hstep, ih _ hnd']
      constructor
      · rintro ⟨m, hm1, hm2⟩
        rw [hasKeyF_append] at hm1
        rcases Bool.or_eq_true_iff.mp hm1 with hm1 | hm1
        · refine ⟨m, hm1, ?_⟩
          by_cases h : e.1 = m <;> simp [hasKeyF, h, hm2]
        · exfalso
          have hme : e.1 = m := by
            revert hm1; by_cases h : e.1 = m <;> simp [hasKeyF, h]
          subst hme
          exact hmem ((hasKeyF_iff_mem _ _).mp hm2)
      · rintro ⟨m, hm1, hm2⟩
        have hm2' : hasKeyF rest m = true := by
          by_cases h : e.1 = m
          · subst h
            exact absurd hm1 (by simp [hkey'])
          · simpa [hasKeyF, h] using hm2
        refine ⟨m, ?_, hm2'⟩
        rw [hasKeyF_append, hm1]
        rfl

/-- C5: for operands `a` and `b` of `+`, neither a field-less `Empty`,
construction fails (panics, modelled as `none`) exactly when `a` and `b`
share a field name; when their names are disjoint the result holds every
field of both operands, `a`'s paths prefixed with `0` and `b`'s with `1`. -/
theorem c5_concat_duplicate_fields {Pat : Type} (a b : RuleWithNamedFields Pat)
    (hna : isEmptyFieldless a = false) (hnb : isEmptyFieldless b = false)
    (hbn : keysNodup b.fields) :
    (add a b = none ↔ ∃ n, hasKeyF a.fields n = true ∧ hasKeyF b.fields n = true)
    ∧ ((∀ n, ¬(hasKeyF a.fields n = true ∧ hasKeyF b.fields n = true)) →
        add a b = some ⟨Rule.Concat a.rule b.rule,
          prependToFields 0 a.fields ++ prependToFields 1 b.fields⟩) := by
  constructor
  · rw [show add a b = (match addLoop (prependToFields 0 a.fields) b.fields with
      | none => none
      | some f => some ⟨Rule.Concat a.rule b.rule, f⟩) from by simp [add, hna, hnb]]
    rw [show (∃ n, hasKeyF a.fields n = true ∧ hasKeyF b.fields n = true)
        ↔ (∃ n, hasKeyF (prependToFields 0 a.fields) n = true
            ∧ hasKeyF b.fields n = true) from by
      simp [hasKeyF_prependToFields]]
    rw [← addLoop_none_iff b.fields (prependToFields 0 a.fields) hbn]
    cases addLoop (prependToFields 0 a.fields) b.fields <;> simp
  · intro hdisj
    have hd : ∀ m, hasKeyF (prependToFields 0 a.fields) m = true →
        hasKeyF b.fields m = false := by
      intro m hm
      rw [hasKeyF_prependToFields] at hm
      have := hdisj m
      by_contra h
      have h' : hasKeyF b.fields m = true := by
        revert h; cases hasKeyF b.fields m <;> simp
      exact this ⟨hm, h'⟩
    have hrun := addLoop_success b.fields (prependToFields 0 a.fields) hbn hd
    rw [show add a b = (match addLoop (prependToFields 0 a.fields) b.fields with
      | none => none
      | some f => some ⟨Rule.Concat a.rule b.rule, f⟩) from by simp [add, hna, hnb]]
    rw [hrun]
    rfl

/-- Witness for C5: a shared name "x" makes `+` fail; disjoint names "x"
and "y" build the `Concat` with correctly prefixed paths. -/
theorem c5_concat_duplicate_fields_witness :
    (add ⟨Rule.Eat pNever, [("x", [[]])]⟩ ⟨Rule.Eat pAlways, [("x", [[]])]⟩
        = none)
    ∧ (add ⟨Rule.Eat pNever, [("x", [[]])]⟩ ⟨Rule.Eat pAlways, [("y", [[]])]⟩
        = some ⟨Rule.Concat (Rule.Eat pNever) (Rule.Eat pAlways),
            [("x", [[0]]), ("y", [[1]])]⟩) := by
  constructor
  · exact (c5_concat_duplicate_fields
      ⟨Rule.Eat pNever, [("x", [[]])]⟩ ⟨Rule.Eat pAlways, [("x", [[]])]⟩
      (by decide) (by decide) (by decide)).1.mpr
      ⟨"x", by decide, by decide⟩
  · have h := (c5_concat_duplicate_fields
      ⟨Rule.Eat pNever, [("x", [[]])]⟩ ⟨Rule.Eat pAlways, [("y", [[]])]⟩
      (by decide) (by decide) (by decide)).2 (by
        intro n hn
        rcases hn with ⟨h1, h2⟩
        simp [hasKeyF] at h1 h2
        rw [← h1] at h2
        exact absurd h2 (by decide))
    simpa [prependToFields] using h

/-- Modelled from the claim's words (spec section 4.6): refutability of a
single path, walking the path through the tree — `Concat` defers to the
child selected by the next path index, reaching `Or` or `Opt` yields
true, reaching `Empty`/`Eat`/`Call`/`RepeatMany`/`RepeatMore` yields
false.  Used only for comparison with `fieldIsRefutable`. -/
def specRefutableWalk : Rule Pat → Path → Option Bool
  | .Concat l r, path =>
    match path with
    | [] => none
    | i :: rest =>
      if i = 0 then specRefutableWalk l rest
      else if i = 1 then specRefutableWalk r rest
      else none
  | .Or _, _ => some true
  | .Opt _, _ => some true
  | _, _ => some false

/-- C8: a path set with more than one path is always refutable; a
singleton path set is decided by `field_is_refutable`, which agrees with
the claim's walk (`specRefutableWalk`) on every rule and path.  For the
concrete rule `(eat(p).field("x")) | (eat(q).field("x"))` the name "x"
maps to exactly the two paths `[0]` and `[1]`, and is reported
refutable. -/
theorem c8_refutability_query :
    (∀ (Pat : Type) (r : Rule Pat) (ps : PathSet), 1 < ps.length →
        fieldPathsetIsRefutable r ps = some true)
    ∧ (∀ (Pat : Type) (r : Rule Pat) (p : Path),
        fieldPathsetIsRefutable r [p] = specRefutableWalk r p)
    ∧ (∀ (Pat : Type) (r : Rule Pat) (p : Path),
        fieldIsRefutable r p = specRefutableWalk r p)
    ∧ (((eat pNever).field "x").bind
          (fun xl => ((eat pAlways).field "x").map (fun xr => bitor xl xr))
        = some ⟨Rule.Or [Rule.Eat pNever, Rule.Eat pAlways], [("x", [[0], [1]])]⟩
      ∧ assocLookup [("x", ([[0], [1]] : PathSet))] "x" = some [[0], [1]]
      ∧ fieldPathsetIsRefutable (Rule.Or [Rule.Eat pNever, Rule.Eat pAlways])
          [[0], [1]] = some true) := by
  have hwalk : ∀ (Pat : Type) (r : Rule Pat) (p : Path),
      fieldIsRefutable r p = specRefutableWalk r p := by
    intro Pat r p
    induction r, p using fieldIsRefutable.induct with
    | case1 => simp [fieldIsRefutable, specRefutableWalk]
    | case2 => simp [fieldIsRefutable, specRefutableWalk]
    | case3 => simp [fieldIsRefutable, specRefutableWalk]
    | case4 => simp [fieldIsRefutable, specRefutableWalk]
    | case5 => simp [fieldIsRefutable, specRefutableWalk]
    | case6 => simp [fieldIsRefutable, specRefutableWalk]
    | case7 l r rest ih => simpa [fieldIsRefutable, specRefutableWalk] using ih
    | case8 l r rest ih => simpa [fieldIsRefutable, specRefutableWalk] using ih
    | case9 l r i rest h0 h1 =>
      have hi0 : ¬ i = 0 := fun h => h0 h
      have hi1 : ¬ i = 1 := fun h => h1 h
      simp [fieldIsRefutable, specRefutableWalk, hi0, hi1]
    | case10 => simp [fieldIsRefutable, specRefutableWalk]
    | case11 => simp [fieldIsRefutable, specRefutableWalk]
  refine ⟨?_, ?_, hwalk, by decide, by decide, by decide⟩
  · intro Pat r ps h
    simp [fieldPathsetIsRefutable, h]
  · intro Pat r p
    simpa [fieldPathsetIsRefutable] using hwalk Pat r p

/-- Witness for C8's first part at a two-path set. -/
theorem c8_refutability_query_witness :
    fieldPathsetIsRefutable (Rule.Empty : Rule TPat) [[0], [1]] = some true :=
  c8_refutability_query.1 TPat Rule.Empty [[0], [1]] (by decide)

theorem assocLookup_append (f g : List (String × α)) (n : String) :
    assocLookup (f ++ g) n
      = match assocLookup f n with
        | some v => some v
        | none => assocLookup g n := by
  induction f with
  | nil => simp [assocLookup]
  | cons e rest ih =>
    by_cases h : e.1 = n <;> simp [assocLookup, h, ih]

theorem hasKeyF_eq_isSome (f : Fields) (n : String) :
    hasKeyF f n = (assocLookup f n).isSome := by
  induction f with
  | nil => rfl
  | cons e rest ih =>
    by_cases h : e.1 = n <;> simp [hasKeyF, assocLookup, h, ih]

theorem assocLookup_mapReplace (n : String) (g : PathSet → PathSet)
    (f : Fields) (m : String) :
    assocLookup (f.map (fun e => if e.1 = n then (n, g e.2) else e)) m
      = if n = m then (assocLookup f n).map g else assocLookup f m := by
  induction f with
  | nil => by_cases h : n = m <;> simp [assocLookup, h]
  | cons e rest ih =>
    by_cases he : e.1 = n
    · by_cases hm : n = m
      · subst hm
        simp [assocLookup, he, ih]
      · have hem : ¬ e.1 = m := by rw [he]; exact hm
        simp [assocLookup, he, hm, hem, ih]
    · by_cases hm : n = m
      · subst hm
        simp [assocLookup, he, ih]
      · by_cases hem : e.1 = m
        · have hmn : ¬ m = n := fun hh => hm hh.symm
          simp [assocLookup, he, hem, hm, hmn, ih]
        · simp [assocLookup, he, hem, hm, ih]

theorem assocLookup_entryExtend_ne (f : Fields) (n : String) (ps : PathSet)
    (m : String) (h : ¬ n = m) :
    assocLookup (entryExtend f n ps) m = assocLookup f m := by
  unfold entryExtend
  by_cases hk : hasKeyF f n = true
  · rw [if_pos hk]
    rw [assocLookup_mapReplace n (fun s => setExtend s ps) f m]
    simp [h]
  · rw [if_neg hk]
    rw [assocLookup_append]
    have hsing : assocLookup [(n, setExtend [] ps)] m = none := by
      simp [assocLookup, h]
    rw [hsing]
    cases assocLookup f m <;> rfl

theorem assocLookup_entryExtend_self (f : Fields) (n : String) (ps : PathSet) :
    assocLookup (entryExtend f n ps) n
      = match assocLookup f n with
        | none => some (setExtend [] ps)
        | some v => some (setExtend v ps) := by
  unfold entryExtend
  cases hl : assocLookup f n with
  | none =>
    have hk : ¬ hasKeyF f n = true := by
      rw [hasKeyF_eq_isSome, hl]; simp
    rw [if_neg hk]
    rw [assocLookup_append, hl]
    simp [assocLookup]
  | some v =>
    have hk : hasKeyF f n = true := by
      rw [hasKeyF_eq_isSome, hl]; rfl
    rw [if_pos hk]
    rw [assocLookup_mapReplace n (fun s => setExtend s ps) f n]
    simp [hl]

theorem setExtend_of_disjoint :
    ∀ t s : PathSet, t.Nodup → (∀ p ∈ t, p ∉ s) → setExtend s t = s ++ t := by
  intro t
  induction t with
  | nil => intro s _ _; simp [setExtend]
  | cons p rest ih =>
    intro s hnd hdisj
    have hp : p ∉ s := hdisj p (by simp)
    have hstep : setExtend s (p :: rest) = setExtend (s ++ [p]) rest := by
      simp [setExtend, setInsert, hp]
    have hdisj' : ∀ q ∈ rest, q ∉ s ++ [p] := by
      intro q hq
      simp only [List.mem_append, List.mem_singleton]
      rintro (h | h)
      · exact hdisj q (by simp [hq]) h
      · exact (List.nodup_cons.mp hnd).1 (h ▸ hq)
    rw [hstep, ih (s ++ [p]) (List.nodup_cons.mp hnd).2 hdisj']
    simp

theorem setExtend_nil_of_nodup (t : PathSet) (h : t.Nodup) :
    setExtend [] t = t := by
  simpa using setExtend_of_disjoint t [] h (by simp)

theorem assocLookup_bitorAddAlt (k : Nat) :
    ∀ (l : Fields) (fs : Fields), keysNodup l → ∀ n,
      assocLookup (l.foldl
          (fun acc e => entryExtend acc e.1 (e.2.map (fun p => k :: p))) fs) n
        = match assocLookup l n with
          | none => assocLookup fs n
          | some qs =>
            match assocLookup fs n with
            | none => some (setExtend [] (qs.map (fun p => k :: p)))
            | some ps => some (setExtend ps (qs.map (fun p => k :: p))) := by
  intro l
  induction l with
  | nil => intro fs _ n; simp [assocLookup]
  | cons e rest ih =>
    intro fs hnd n
    have hnd' : keysNodup rest := by
      simpa [keysNodup] using (List.nodup_cons.mp hnd).2
    have hmem : e.1 ∉ rest.map Prod.fst := by
      simpa [keysNodup] using (List.nodup_cons.mp hnd).1
    have hkf : hasKeyF rest e.1 = false := by
      by_cases h : hasKeyF rest e.1 = true
      · exact absurd ((hasKeyF_iff_mem _ _).mp h) hmem
      · revert h; cases hasKeyF rest e.1 <;> simp
    have hrestnone : assocLookup rest e.1 = none := by
      rw [hasKeyF_eq_isSome] at hkf
      cases hl : assocLookup rest e.1
      · rfl
      · rw [hl] at hkf; simp at hkf
    have hfold : (e :: rest).foldl
        (fun acc e => entryExtend acc e.1 (e.2.map (fun p => k :: p))) fs
        = rest.foldl (fun acc e => entryExtend acc e.1 (e.2.map (fun p => k :: p)))
            (entryExtend fs e.1 (e.2.map (fun p => k :: p))) := rfl
    rw [hfold, ih _ hnd' n]
    by_cases hen : e.1 = n
    · subst hen
      rw [hrestnone]
      rw [show assocLookup (e :: rest) e.1 = some e.2 from by simp [assocLookup]]
      rw [assocLookup_entryExtend_self]
    · rw [show assocLookup (e :: rest) n = assocLookup rest n from by
        simp [assocLookup, hen]]
      rw [assocLookup_entryExtend_ne fs e.1 _ n hen]

/-- Is the rule an `Or` node? -/
def isOrRule : Rule Pat → Bool
  | .Or _ => true
  | _ => false

/-- An `Or` node is flat when none of its alternatives is itself an `Or`
(trivially true for non-`Or` rules). -/
def orIsFlat : Rule Pat → Bool
  | .Or l => l.all (fun x => !(isOrRule x))
  | _ => true

/-- Every path set in the mapping is duplicate-free (an `IndexSet`
invariant). -/
def pathsNodup (f : Fields) : Prop :=
  ∀ e ∈ f, List.Nodup e.2

instance (f : Fields) : Decidable (pathsNodup f) := by
  unfold pathsNodup; infer_instance

/-- Third pattern for counterexamples. -/
def pThird : TPat := ⟨2, .Known false⟩

/-- Counterexample to C3: when the right operand of `|` is itself an `Or`,
`bitor` appends it whole, producing a nested `Or`:
`eat(a) | (eat(b) | eat(c))` yields `Or [Eat a, Or [Eat b, Eat c]]`,
whose second alternative is an `Or`. -/
theorem c3_counterexample :
    (bitor (eat pNever) (bitor (eat pAlways) (eat pThird))).rule
        = Rule.Or [Rule.Eat pNever, Rule.Or [Rule.Eat pAlways, Rule.Eat pThird]]
      ∧ orIsFlat (bitor (eat pNever) (bitor (eat pAlways) (eat pThird))).rule
        = false := by
  exact ⟨by decide, by decide⟩

theorem assocLookup_mem :
    ∀ (f : List (String × α)) (n : String) (v : α),
      assocLookup f n = some v → (n, v) ∈ f := by
  intro f
  induction f with
  | nil => intro n v h; simp [assocLookup] at h
  | cons e rest ih =>
    intro n v h
    rcases e with ⟨e1, e2⟩
    by_cases he : e1 = n
    · have h' : some e2 = some v := by
        simpa [assocLookup, he] using h
      injection h' with h2
      subst he; subst h2
      simp
    · have h' : assocLookup rest n = some v := by
        simpa [assocLookup, he] using h
      exact List.mem_cons_of_mem _ (ih n v h')

theorem pathMapNodup (k : Nat) (ps : PathSet) (h : ps.Nodup) :
    (ps.map (fun p => k :: p)).Nodup :=
  h.map (fun a b hab => by simpa using hab)

theorem pathMapDisjoint (ps qs : PathSet) :
    ∀ q ∈ qs.map (fun p => 1 :: p), q ∉ ps.map (fun p => 0 :: p) := by
  intro q hq hq'
  rcases List.mem_map.mp hq with ⟨a, _, rfl⟩
  rcases List.mem_map.mp hq' with ⟨b, _, hb⟩
  simp at hb

/-- C3 (amended): `operator |` appends the right operand to an existing
left `Or` — the appended alternative's field paths prefixed by the
previous list length, path sets for a shared name unioned — and otherwise
builds a fresh two-element `Or` with paths prefixed `0`/`1`; the result
is flat provided the right operand's rule is not itself an `Or` (and, in
the append case, the existing alternatives are flat).  An `Or` right
operand is appended whole as a single nested alternative, contradicting
the claim as stated. -/
theorem c3_bitor_flattening :
    (∀ (Pat : Type) (x y : RuleWithNamedFields Pat) (l : List (Rule Pat)),
      x.rule = Rule.Or l → isOrRule y.rule = false →
      keysNodup y.fields → pathsNodup y.fields →
        (bitor x y).rule = Rule.Or (l ++ [y.rule])
        ∧ ((∀ r ∈ l, isOrRule r = false) → orIsFlat (bitor x y).rule = true)
        ∧ (∀ n, assocLookup (bitor x y).fields n
            = match assocLookup y.fields n with
              | none => assocLookup x.fields n
              | some qs =>
                match assocLookup x.fields n with
                | none => some (qs.map (fun p => l.length :: p))
                | some ps => some (setExtend ps (qs.map (fun p => l.length :: p)))))
    ∧ (∀ (Pat : Type) (x y : RuleWithNamedFields Pat),
      isOrRule x.rule = false → isOrRule y.rule = false →
      keysNodup x.fields → keysNodup y.fields →
      pathsNodup x.fields → pathsNodup y.fields →
        (bitor x y).rule = Rule.Or [x.rule, y.rule]
        ∧ orIsFlat (bitor x y).rule = true
        ∧ (∀ n, assocLookup (bitor x y).fields n
            = match assocLookup x.fields n, assocLookup y.fields n with
              | none, none => none
              | some ps, none => some (ps.map (fun p => 0 :: p))
              | none, some qs => some (qs.map (fun p => 1 :: p))
              | some ps, some qs =>
                some (ps.map (fun p => 0 :: p) ++ qs.map (fun p => 1 :: p)))) := by
  constructor
  · intro Pat x y l hx hy hkn hpn
    have hb : bitor x y
        = ⟨Rule.Or (l ++ [y.rule]), bitorAddAlt x.fields l.length y⟩ := by
      unfold bitor; rw [hx]
    refine ⟨by rw [hb], ?_, ?_⟩
    · intro hflat
      rw [hb]
      simp only [orIsFlat, List.all_append, List.all_cons, List.all_nil,
        Bool.and_eq_true, List.all_eq_true]
      refine ⟨fun r hr => ?_, ?_, trivial⟩
      · simp [hflat r hr]
      · simp [hy]
    · intro n
      rw [hb]
      show assocLookup (bitorAddAlt x.fields l.length y) n = _
      unfold bitorAddAlt
      rw [assocLookup_bitorAddAlt l.length y.fields x.fields hkn n]
      cases hqy : assocLookup y.fields n with
      | none => rfl
      | some qs =>
        have hqnd : qs.Nodup := hpn (n, qs) (assocLookup_mem _ _ _ hqy)
        cases assocLookup x.fields n with
        | none =>
          simp [setExtend_nil_of_nodup _ (pathMapNodup l.length qs hqnd)]
        | some ps => rfl
  · intro Pat x y hx hy hknx hkny hpnx hpny
    have hb : bitor x y
        = ⟨Rule.Or [x.rule, y.rule], bitorAddAlt (bitorAddAlt [] 0 x) 1 y⟩ := by
      cases hxr : x.rule with
      | Or rules =>
        exfalso
        rw [hxr] at hx
        simp [isOrRule] at hx
      | Empty => unfold bitor; rw [hxr]
      | Eat p => unfold bitor; rw [hxr]
      | Call nm => unfold bitor; rw [hxr]
      | Concat a b => unfold bitor; rw [hxr]
      | Opt a => unfold bitor; rw [hxr]
      | RepeatMany a s => unfold bitor; rw [hxr]
      | RepeatMore a s => unfold bitor; rw [hxr]
    refine ⟨by rw [hb], ?_, ?_⟩
    · rw [hb]
      simp only [orIsFlat, List.all_cons, List.all_nil, Bool.and_eq_true]
      exact ⟨by simp [hx], by simp [hy], trivial⟩
    · intro n
      rw [hb]
      show assocLookup (bitorAddAlt (bitorAddAlt [] 0 x) 1 y) n = _
      have hinner : assocLookup (bitorAddAlt [] 0 x) n
          = match assocLookup x.fields n with
            | none => none
            | some ps => some (ps.map (fun p => 0 :: p)) := by
        unfold bitorAddAlt
        rw [assocLookup_bitorAddAlt 0 x.fields [] hknx n]
        cases hpx : assocLookup x.fields n with
        | none => rfl
        | some ps =>
          have hnd : ps.Nodup := hpnx (n, ps) (assocLookup_mem _ _ _ hpx)
          simp [assocLookup, setExtend_nil_of_nodup _ (pathMapNodup 0 ps hnd)]
      conv =>
        lhs
        rw [show bitorAddAlt (bitorAddAlt [] 0 x) 1 y
          = y.fields.foldl
              (fun acc e => entryExtend acc e.1 (e.2.map (fun p => 1 :: p)))
              (bitorAddAlt [] 0 x) from rfl]
      rw [assocLookup_bitorAddAlt 1 y.fields (bitorAddAlt [] 0 x) hkny n]
      rw [hinner]
      cases hqy : assocLookup y.fields n with
      | none => cases assocLookup x.fields n <;> rfl
      | some qs =>
        have hqnd : qs.Nodup := hpny (n, qs) (assocLookup_mem _ _ _ hqy)
        cases hpx : assocLookup x.fields n with
        | none =>
          simp [setExtend_nil_of_nodup _ (pathMapNodup 1 qs hqnd)]
        | some ps =>
          show some (setExtend (ps.map (fun p => 0 :: p)) (qs.map (fun p => 1 :: p)))
            = some (ps.map (fun p => 0 :: p) ++ qs.map (fun p => 1 :: p))
          rw [setExtend_of_disjoint _ _ (pathMapNodup 1 qs hqnd)
            (pathMapDisjoint ps qs)]

/-- Witness for C3 (amended), both cases at concrete values:
appending `eat(c).field("y")` to `(eat(a).field("x")) | (eat(b))`, and
the fresh combination `(eat(a).field("x")) | (eat(c).field("x"))`. -/
theorem c3_bitor_flattening_witness :
    ((bitor (bitor ⟨Rule.Eat pNever, [("x", [[]])]⟩ (eat pAlways))
        ⟨Rule.Eat pThird, [("y", [[]])]⟩).rule
      = Rule.Or [Rule.Eat pNever, Rule.Eat pAlways, Rule.Eat pThird]
    ∧ orIsFlat (bitor (bitor ⟨Rule.Eat pNever, [("x", [[]])]⟩ (eat pAlways))
        ⟨Rule.Eat pThird, [("y", [[]])]⟩).rule = true
    ∧ assocLookup (bitor (bitor ⟨Rule.Eat pNever, [("x", [[]])]⟩ (eat pAlways))
        ⟨Rule.Eat pThird, [("y", [[]])]⟩).fields "y" = some [[2]])
    ∧ ((bitor ⟨Rule.Eat pNever, [("x", [[]])]⟩ ⟨Rule.Eat pThird, [("x", [[]])]⟩).rule
      = Rule.Or [Rule.Eat pNever, Rule.Eat pThird]
    ∧ assocLookup (bitor ⟨Rule.Eat pNever, [("x", [[]])]⟩
        ⟨Rule.Eat pThird, [("x", [[]])]⟩).fields "x"
      = some [[0], [1]]) := by
  have hA := c3_bitor_flattening.1 TPat
    (bitor ⟨Rule.Eat pNever, [("x", [[]])]⟩ (eat pAlways))
    ⟨Rule.Eat pThird, [("y", [[]])]⟩
    [Rule.Eat pNever, Rule.Eat pAlways]
    (by decide) (by decide) (by decide) (by decide)
  have hB := c3_bitor_flattening.2 TPat
    ⟨Rule.Eat pNever, [("x", [[]])]⟩ ⟨Rule.Eat pThird, [("x", [[]])]⟩
    (by decide) (by decide) (by decide) (by decide) (by decide) (by decide)
  refine ⟨⟨hA.1, hA.2.1 (by decide), ?_⟩, hB.1, ?_⟩
  · rw [hA.2.2 "y"]
    decide
  · rw [hB.2.2 "x"]
    decide

theorem mem_setCache_unknown [DecidableEq Pat] (c : Cache Pat) (r : Rule Pat)
    (b : Bool) (k : Rule Pat) :
    (k, MaybeKnown.Unknown) ∈ setCache c r (.Known b)
      ↔ ((k, MaybeKnown.Unknown) ∈ c ∧ ¬ k = r) := by
  simp only [setCache, List.mem_map]
  constructor
  · rintro ⟨e, he, heq⟩
    by_cases h : e.1 = r
    · rw [if_pos h] at heq
      simp at heq
    · rw [if_neg h] at heq
      subst heq
      exact ⟨he, h⟩
  · rintro ⟨hmem, hkr⟩
    refine ⟨(k, MaybeKnown.Unknown), hmem, ?_⟩
    rw [if_neg hkr]

theorem mem_removeCache_unknown [DecidableEq Pat] (c : Cache Pat) (r : Rule Pat)
    (k : Rule Pat) :
    (k, MaybeKnown.Unknown) ∈ removeCache c r
      ↔ ((k, MaybeKnown.Unknown) ∈ c ∧ ¬ k = r) := by
  simp only [removeCache, List.mem_filter]
  constructor
  · rintro ⟨hmem, hp⟩
    refine ⟨hmem, ?_⟩
    intro hk
    rw [if_pos hk] at hp
    simp at hp
  · rintro ⟨hmem, hk⟩
    exact ⟨hmem, by rw [if_neg hk]⟩

theorem lookupCache_none_not_mem [DecidableEq Pat] (c : Cache Pat) (r : Rule Pat)
    (h : lookupCache c r = none) : ∀ v, (r, v) ∉ c := by
  induction c with
  | nil => intro v; simp
  | cons e rest ih =>
    intro v hmem
    by_cases he : e.1 = r
    · simp [lookupCache, he] at h
    · rcases List.mem_cons.mp hmem with hh | hh
      · exact he (by rw [← hh])
      · have h' : lookupCache rest r = none := by
          simpa [lookupCache, he] using h
        exact ih h' v hh

theorem orFoldAux_unknown_mem [DecidableEq Pat]
    (step : Cache Pat → Rule Pat → Option (MaybeKnown Bool × Cache Pat))
    (hstep : ∀ c r res c', step c r = some (res, c') →
      ∀ k, ((k, MaybeKnown.Unknown) ∈ c' ↔ (k, MaybeKnown.Unknown) ∈ c)) :
    ∀ (rules : List (Rule Pat)) (prev : MaybeKnown Bool) (c : Cache Pat)
      (res : MaybeKnown Bool) (c' : Cache Pat),
      orFoldAux step prev c rules = some (res, c') →
      ∀ k, ((k, MaybeKnown.Unknown) ∈ c' ↔ (k, MaybeKnown.Unknown) ∈ c) := by
  intro rules
  induction rules with
  | nil =>
    intro prev c res c' h k
    simp only [orFoldAux] at h
    injection h with h1
    injection h1 with _ h2
    rw [h2]
  | cons r rest ih =>
    intro prev c res c' h k
    simp only [orFoldAux] at h
    cases hs : step c r with
    | none => rw [hs] at h; exact absurd h (by simp)
    | some p =>
      obtain ⟨v, c1⟩ := p
      rw [hs] at h
      exact Iff.trans (ih (mOr prev v) c1 res c' h k) (hstep c r v c1 hs k)

theorem canBeEmptyUncached_unknown_mem [DecidableEq Pat] [MatchesEmpty Pat]
    (g : Grammar Pat)
    (step : Cache Pat → Rule Pat → Option (MaybeKnown Bool × Cache Pat))
    (hstep : ∀ c r res c', step c r = some (res, c') →
      ∀ k, ((k, MaybeKnown.Unknown) ∈ c' ↔ (k, MaybeKnown.Unknown) ∈ c)) :
    ∀ (c : Cache Pat) (r : Rule Pat) (res : MaybeKnown Bool) (c' : Cache Pat),
      canBeEmptyUncached g step c r = some (res, c') →
      ∀ k, ((k, MaybeKnown.Unknown) ∈ c' ↔ (k, MaybeKnown.Unknown) ∈ c) := by
  intro c r res c' h k
  cases r with
  | Empty =>
    simp only [canBeEmptyUncached] at h
    injection h with h1; injection h1 with _ h2; rw [h2]
  | Opt inner =>
    simp only [canBeEmptyUncached] at h
    injection h with h1; injection h1 with _ h2; rw [h2]
  | RepeatMany e s =>
    simp only [canBeEmptyUncached] at h
    injection h with h1; injection h1 with _ h2; rw [h2]
  | Eat p =>
    simp only [canBeEmptyUncached] at h
    injection h with h1; injection h1 with _ h2; rw [h2]
  | Call name =>
    simp only [canBeEmptyUncached] at h
    cases hl : assocLookup g.rules name with
    | none => rw [hl] at h; exact absurd h (by simp)
    | some rwf =>
      rw [hl] at h
      exact hstep c rwf.rule res c' h k
  | Concat left right =>
    simp only [canBeEmptyUncached] at h
    cases h1 : step c left with
    | none => rw [h1] at h; exact absurd h (by simp)
    | some p =>
      obtain ⟨a, c1⟩ := p
      rw [h1] at h
      dsimp only at h
      cases h2 : step c1 right with
      | none => rw [h2] at h; exact absurd h (by simp)
      | some q =>
        obtain ⟨b, c2⟩ := q
        rw [h2] at h
        injection h with h3
        injection h3 with _ h4
        rw [h4] at h2
        exact Iff.trans (hstep c1 right b c' h2 k) (hstep c left a c1 h1 k)
  | Or rules =>
    simp only [canBeEmptyUncached] at h
    exact orFoldAux_unknown_mem step hstep rules (.Known false) c res c' h k
  | RepeatMore e s =>
    simp only [canBeEmptyUncached] at h
    exact hstep c e res c' h k

theorem canBeEmpty_unknown_mem [DecidableEq Pat] [MatchesEmpty Pat]
    (g : Grammar Pat) :
    ∀ (fuel : Nat) (c : Cache Pat) (r : Rule Pat) (res : MaybeKnown Bool)
      (c' : Cache Pat),
      canBeEmpty g fuel c r = some (res, c') →
      ∀ k, ((k, MaybeKnown.Unknown) ∈ c' ↔ (k, MaybeKnown.Unknown) ∈ c) := by
  intro fuel
  induction fuel with
  | zero => intro c r res c' h; simp [canBeEmpty] at h
  | succ fuel ih =>
    intro c r res c' h k
    simp only [canBeEmpty] at h
    cases hl : lookupCache c r with
    | some v =>
      rw [hl] at h
      injection h with h1; injection h1 with _ h2; rw [h2]
    | none =>
      rw [hl] at h
      cases hu : canBeEmptyUncached g (fun c r' => canBeEmpty g fuel c r')
          ((r, MaybeKnown.Unknown) :: c) r with
      | none => rw [hu] at h; exact absurd h (by simp)
      | some p =>
        obtain ⟨res2, c2⟩ := p
        rw [hu] at h
        have hc2 : ∀ k, ((k, MaybeKnown.Unknown) ∈ c2
            ↔ (k, MaybeKnown.Unknown) ∈ (r, MaybeKnown.Unknown) :: c) :=
          canBeEmptyUncached_unknown_mem g _
            (fun c r res c' hcall => ih c r res c' hcall) _ _ _ _ hu
        have hnotc : (r, MaybeKnown.Unknown) ∉ c :=
          lookupCache_none_not_mem c r hl MaybeKnown.Unknown
        cases res2 with
        | Known b =>
          injection h with h1
          injection h1 with hres h2
          rw [← h2]
          rw [mem_setCache_unknown]
          rw [hc2 k]
          simp only [List.mem_cons]
          constructor
          · rintro ⟨hor, hkr⟩
            rcases hor with hh | hh
            · exact absurd (congrArg Prod.fst hh) hkr
            · exact hh
          · intro hmem
            refine ⟨Or.inr hmem, ?_⟩
            intro hk
            subst hk
            exact hnotc hmem
        | Unknown =>
          injection h with h1
          injection h1 with hres h2
          rw [← h2]
          rw [mem_removeCache_unknown]
          rw [hc2 k]
          simp only [List.mem_cons]
          constructor
          · rintro ⟨hor, hkr⟩
            rcases hor with hh | hh
            · exact absurd (congrArg Prod.fst hh) hkr
            · exact hh
          · intro hmem
            refine ⟨Or.inr hmem, ?_⟩
            intro hk
            subst hk
            exact hnotc hmem

/-- C2: the cache protocol of `can_be_empty` — an existing entry for the
(structurally compared) rule is returned immediately with the cache
untouched; and since a cache miss inserts `Unknown` only for the duration
of the recursion, then either overwrites it with a `Known` result or
removes it, an outermost call started on a cache with no `Unknown`
entries returns a cache with no `Unknown` entries. -/
theorem c2_cache_protocol :
    (∀ (Pat : Type) [DecidableEq Pat] [MatchesEmpty Pat] (g : Grammar Pat)
      (fuel : Nat) (c : Cache Pat) (r : Rule Pat) (v : MaybeKnown Bool),
        lookupCache c r = some v → canBeEmpty g (fuel + 1) c r = some (v, c))
    ∧ (∀ (Pat : Type) [DecidableEq Pat] [MatchesEmpty Pat] (g : Grammar Pat)
      (fuel : Nat) (c : Cache Pat) (r : Rule Pat) (res : MaybeKnown Bool)
      (c' : Cache Pat),
        canBeEmpty g fuel c r = some (res, c') →
        (∀ e ∈ c, e.2 ≠ MaybeKnown.Unknown) →
        (∀ e ∈ c', e.2 ≠ MaybeKnown.Unknown)) := by
  constructor
  · intro Pat _ _ g fuel c r v hl
    simp [canBeEmpty, hl]
  · intro Pat _ _ g fuel c r res c' h hknown e he
    intro hu
    rcases e with ⟨er, ev⟩
    have hmem : (er, MaybeKnown.Unknown) ∈ c' := by
      rw [← hu]; exact he
    have hmem' : (er, MaybeKnown.Unknown) ∈ c :=
      (canBeEmpty_unknown_mem g fuel c r res c' h er).mp hmem
    exact hknown (er, MaybeKnown.Unknown) hmem' rfl

/-- Witness for C2: a cache hit is returned untouched, and the concrete
run of C1's first grammar leaves no `Unknown` entry in the cache. -/
theorem c2_cache_protocol_witness :
    canBeEmpty gSelfOr 1 [(Rule.Empty, MaybeKnown.Known true)] Rule.Empty
        = some (MaybeKnown.Known true, [(Rule.Empty, MaybeKnown.Known true)])
      ∧ ¬ ((Rule.Call "R", MaybeKnown.Unknown)
        ∈ ([(Rule.Empty, MaybeKnown.Known true),
            (Rule.Or [Rule.Call "R", Rule.Empty], MaybeKnown.Known true)]
          : Cache TPat)) := by
  constructor
  · exact c2_cache_protocol.1 TPat gSelfOr 0
      [(Rule.Empty, MaybeKnown.Known true)] Rule.Empty (MaybeKnown.Known true)
      (by decide)
  · intro hmem
    exact c2_cache_protocol.2 TPat gSelfOr 10 []
      (Rule.Or [Rule.Call "R", Rule.Empty]) (MaybeKnown.Known true)
      [(Rule.Empty, MaybeKnown.Known true),
        (Rule.Or [Rule.Call "R", Rule.Empty], MaybeKnown.Known true)]
      (by decide) (by simp)
      (Rule.Call "R", MaybeKnown.Unknown) hmem rfl

-- src/rule.rs `Rule::check_non_empty_opt`, with the threaded nullability
-- cache and fuel for the embedded `can_be_empty` calls.  A failed
-- `assert_eq!` aborts the walk; modelled as `some (false, cache)`.
mutual

def checkNonEmptyOpt [DecidableEq Pat] [MatchesEmpty Pat] (g : Grammar Pat)
    (fuel : Nat) : Cache Pat → Rule Pat → Option (Bool × Cache Pat)
  | c, .Empty => some (true, c)
  | c, .Eat _ => some (true, c)
  | c, .Call _ => some (true, c)
  | c, .Concat left right =>
    match checkNonEmptyOpt g fuel c left with
    | none => none
    | some (ok, c1) =>
      if ok then checkNonEmptyOpt g fuel c1 right else some (false, c1)
  | c, .Or rules => checkNonEmptyOptList g fuel c rules
  | c, .Opt r =>
    match canBeEmpty g fuel c r with
    | none => none
    | some (v, c1) =>
      if v = .Known false then checkNonEmptyOpt g fuel c1 r
      else some (false, c1)
  | c, .RepeatMany elem sep =>
    match canBeEmpty g fuel c elem with
    | none => none
    | some (v, c1) =>
      if v = .Known false then
        match checkNonEmptyOpt g fuel c1 elem with
        | none => none
        | some (ok, c2) =>
          if ok then checkNonEmptyOptSep g fuel c2 sep else some (false, c2)
      else some (false, c1)
  | c, .RepeatMore elem sep =>
    match canBeEmpty g fuel c elem with
    | none => none
    | some (v, c1) =>
      if v = .Known false then
        match checkNonEmptyOpt g fuel c1 elem with
        | none => none
        | some (ok, c2) =>
          if ok then checkNonEmptyOptSep g fuel c2 sep else some (false, c2)
      else some (false, c1)

def checkNonEmptyOptSep [DecidableEq Pat] [MatchesEmpty Pat] (g : Grammar Pat)
    (fuel : Nat) : Cache Pat → Option (Rule Pat × SepKind) →
    Option (Bool × Cache Pat)
  | c, none => some (true, c)
  | c, some (s, _) => checkNonEmptyOpt g fuel c s

def checkNonEmptyOptList [DecidableEq Pat] [MatchesEmpty Pat] (g : Grammar Pat)
    (fuel : Nat) : Cache Pat → List (Rule Pat) → Option (Bool × Cache Pat)
  | c, [] => some (true, c)
  | c, r :: rest =>
    match checkNonEmptyOpt g fuel c r with
    | none => none
    | some (ok, c1) =>
      if ok then checkNonEmptyOptList g fuel c1 rest else some (false, c1)

end

-- The rules whose nullability `check_non_empty_opt` asserts to be
-- `Known(false)`, in traversal order: the inner rule of every `Opt` and
-- the element of every repetition — but not separators, which are only
-- walked recursively.
mutual

def optObligations : Rule Pat → List (Rule Pat)
  | .Empty => []
  | .Eat _ => []
  | .Call _ => []
  | .Concat l r => optObligations l ++ optObligations r
  | .Or rules => optObligationsList rules
  | .Opt r => r :: optObligations r
  | .RepeatMany e sep => e :: (optObligations e ++ optObligationsSep sep)
  | .RepeatMore e sep => e :: (optObligations e ++ optObligationsSep sep)

def optObligationsSep : Option (Rule Pat × SepKind) → List (Rule Pat)
  | none => []
  | some (s, _) => optObligations s

def optObligationsList : List (Rule Pat) → List (Rule Pat)
  | [] => []
  | r :: rest => optObligations r ++ optObligationsList rest

end

-- Modelled from the claim's words: the obligations C4 states, which
-- additionally assert each repetition separator itself.
mutual

def claimOptObligations : Rule Pat → List (Rule Pat)
  | .Empty => []
  | .Eat _ => []
  | .Call _ => []
  | .Concat l r => claimOptObligations l ++ claimOptObligations r
  | .Or rules => claimOptObligationsList rules
  | .Opt r => r :: claimOptObligations r
  | .RepeatMany e sep => e :: (claimOptObligations e ++ claimOptObligationsSep sep)
  | .RepeatMore e sep => e :: (claimOptObligations e ++ claimOptObligationsSep sep)

def claimOptObligationsSep : Option (Rule Pat × SepKind) → List (Rule Pat)
  | none => []
  | some (s, _) => s :: claimOptObligations s

def claimOptObligationsList : List (Rule Pat) → List (Rule Pat)
  | [] => []
  | r :: rest => claimOptObligations r ++ claimOptObligationsList rest

end

/-- Run a list of nullability obligations in order, threading the cache:
each rule must have `can_be_empty` return exactly `Known(false)`, a
failure aborting the run (`some (false, _)`). -/
def runObligations [DecidableEq Pat] [MatchesEmpty Pat] (g : Grammar Pat)
    (fuel : Nat) : Cache Pat → List (Rule Pat) → Option (Bool × Cache Pat)
  | c, [] => some (true, c)
  | c, r :: rest =>
    match canBeEmpty g fuel c r with
    | none => none
    | some (v, c1) =>
      if v = .Known false then runObligations g fuel c1 rest
      else some (false, c1)

theorem runObligations_append [DecidableEq Pat] [MatchesEmpty Pat]
    (g : Grammar Pat) (fuel : Nat) :
    ∀ (l1 l2 : List (Rule Pat)) (c : Cache Pat),
      runObligations g fuel c (l1 ++ l2)
        = match runObligations g fuel c l1 with
          | none => none
          | some (ok, c1) =>
            if ok then runObligations g fuel c1 l2 else some (false, c1) := by
  intro l1
  induction l1 with
  | nil => intro l2 c; simp [runObligations]
  | cons r rest ih =>
    intro l2 c
    show runObligations g fuel c (r :: (rest ++ l2)) = _
    simp only [runObligations]
    cases canBeEmpty g fuel c r with
    | none => rfl
    | some p =>
      obtain ⟨v, c1⟩ := p
      by_cases hv : v = MaybeKnown.Known false
      · simp only [hv, if_pos rfl]
        exact ih l2 c1
      · simp only [if_neg hv]
        simp

theorem checkNonEmptyOpt_eq_runObligations [DecidableEq Pat] [MatchesEmpty Pat]
    (g : Grammar Pat) (fuel : Nat) :
    ∀ (c : Cache Pat) (r : Rule Pat),
      checkNonEmptyOpt g fuel c r
        = runObligations g fuel c (optObligations r) :=
  checkNonEmptyOpt.induct g fuel
    (fun c r => checkNonEmptyOpt g fuel c r
      = runObligations g fuel c (optObligations r))
    (fun c sep => checkNonEmptyOptSep g fuel c sep
      = runObligations g fuel c (optObligationsSep sep))
    (fun c rules => checkNonEmptyOptList g fuel c rules
      = runObligations g fuel c (optObligationsList rules))
    (by intro c; simp [checkNonEmptyOpt, optObligations, runObligations])
    (by intro c p; simp [checkNonEmptyOpt, optObligations, runObligations])
    (by intro c nm; simp [checkNonEmptyOpt, optObligations, runObligations])
    (by
      intro c left right h ih
      simp only [checkNonEmptyOpt, optObligations]
      rw [runObligations_append, ← ih, h])
    (by
      intro c left right c1 h ih1 ih2
      simp only [checkNonEmptyOpt, optObligations]
      rw [runObligations_append, ← ih1, h]
      dsimp only
      exact ih2)
    (by
      intro c left right ok c1 h hok ih
      have hok2 : ok = false := by revert hok; cases ok <;> simp
      subst hok2
      simp only [checkNonEmptyOpt, optObligations]
      rw [runObligations_append, ← ih, h]
      rfl)
    (by
      intro c rules ih
      simp only [checkNonEmptyOpt, optObligations]
      exact ih)
    (by
      intro c r h
      simp only [checkNonEmptyOpt, optObligations, runObligations]
      rw [h])
    (by
      intro c r c' h ih
      simp only [checkNonEmptyOpt, optObligations, runObligations]
      rw [h]
      dsimp only
      rw [if_pos rfl, if_pos rfl]
      exact ih)
    (by
      intro c r v c' h hv
      simp only [checkNonEmptyOpt, optObligations, runObligations]
      rw [h]
      dsimp only
      rw [if_neg hv, if_neg hv])
    (by
      intro c elem sep h
      simp only [checkNonEmptyOpt, optObligations, runObligations]
      rw [h])
    (by
      intro c elem sep c' hchk hcan ih
      simp only [checkNonEmptyOpt, optObligations, runObligations]
      rw [hcan]
      dsimp only
      rw [if_pos rfl, if_pos rfl, runObligations_append, ← ih, hchk])
    (by
      intro c elem sep c' c1 hcan hchk ih1 ih2
      simp only [checkNonEmptyOpt, optObligations, runObligations]
      rw [hcan]
      dsimp only
      rw [if_pos rfl, if_pos rfl, runObligations_append, ← ih1, hchk]
      dsimp only
      exact ih2)
    (by
      intro c elem sep c' ok c1 hchk hok hcan ih
      have hok2 : ok = false := by revert hok; cases ok <;> simp
      subst hok2
      simp only [checkNonEmptyOpt, optObligations, runObligations]
      rw [hcan]
      dsimp only
      rw [if_pos rfl, if_pos rfl, runObligations_append, ← ih, hchk]
      rfl)
    (by
      intro c elem sep v c' hcan hv
      simp only [checkNonEmptyOpt, optObligations, runObligations]
      rw [hcan]
      dsimp only
      rw [if_neg hv, if_neg hv])
    (by
      intro c elem sep h
      simp only [checkNonEmptyOpt, optObligations, runObligations]
      rw [h])
    (by
      intro c elem sep c' hchk hcan ih
      simp only [checkNonEmptyOpt, optObligations, runObligations]
      rw [hcan]
      dsimp only
      rw [if_pos rfl, if_pos rfl, runObligations_append, ← ih, hchk])
    (by
      intro c elem sep c' c1 hcan hchk ih1 ih2
      simp only [checkNonEmptyOpt, optObligations, runObligations]
      rw [hcan]
      dsimp only
      rw [if_pos rfl, if_pos rfl, runObligations_append, ← ih1, hchk]
      dsimp only
      exact ih2)
    (by
      intro c elem sep c' ok c1 hchk hok hcan ih
      have hok2 : ok = false := by revert hok; cases ok <;> simp
      subst hok2
      simp only [checkNonEmptyOpt, optObligations, runObligations]
      rw [hcan]
      dsimp only
      rw [if_pos rfl, if_pos rfl, runObligations_append, ← ih, hchk]
      rfl)
    (by
      intro c elem sep v c' hcan hv
      simp only [checkNonEmptyOpt, optObligations, runObligations]
      rw [hcan]
      dsimp only
      rw [if_neg hv, if_neg hv])
    (by
      intro c
      simp [checkNonEmptyOptList, optObligationsList, runObligations])
    (by
      intro c r rest h ih
      simp only [checkNonEmptyOptList, optObligationsList]
      rw [runObligations_append, ← ih, h])
    (by
      intro c r rest c1 h ih1 ih2
      simp only [checkNonEmptyOptList, optObligationsList]
      rw [runObligations_append, ← ih1, h]
      dsimp only
      exact ih2)
    (by
      intro c r rest ok c1 h hok ih
      have hok2 : ok = false := by revert hok; cases ok <;> simp
      subst hok2
      simp only [checkNonEmptyOptList, optObligationsList]
      rw [runObligations_append, ← ih, h]
      rfl)
    (by
      intro c
      simp [checkNonEmptyOptSep, optObligationsSep, runObligations])
    (by
      intro c s k ih
      simp only [checkNonEmptyOptSep, optObligationsSep]
      exact ih)

/-- The empty grammar (no named rules). -/
def gEmptyG : Grammar TPat := ⟨[]⟩

/-- Counterexample to C4 as stated: for
`RepeatMany(eat(p), Some((Empty, Simple)))` with `p` never empty, the
validator succeeds even though the analyzer answers `Known(true)` — not
`Known(false)` — for the separator: the separator is only walked
recursively, its own nullability is never asserted, so running the
claim's own obligation list (which includes the separator) fails where
the code succeeds. -/
theorem c4_counterexample :
    (checkNonEmptyOpt gEmptyG 10 [] (Rule.RepeatMany (Rule.Eat pNever)
        (some (Rule.Empty, SepKind.Simple)))).map Prod.fst = some true
    ∧ (canBeEmpty gEmptyG 10 [] (Rule.Empty : Rule TPat)).map Prod.fst
      = some (MaybeKnown.Known true)
    ∧ (runObligations gEmptyG 10 [] (claimOptObligations
        (Rule.RepeatMany (Rule.Eat pNever)
          (some (Rule.Empty, SepKind.Simple))))).map Prod.fst
      = some false := by
  exact ⟨by decide, by decide, by decide⟩

/-- C4 (amended): `check_non_empty_opt` succeeds exactly when running, in
traversal order, the nullability obligations it actually asserts — the
inner rule of every `Opt` and the element of every
`RepeatMany`/`RepeatMore` must be exactly `Known(false)` — each threading
the shared cache; separators are walked recursively for nested
optionals/repetitions but their own nullability is not asserted. -/
theorem c4_non_empty_opt_validator :
    ∀ (Pat : Type) [DecidableEq Pat] [MatchesEmpty Pat] (g : Grammar Pat)
      (fuel : Nat) (c : Cache Pat) (r : Rule Pat),
      checkNonEmptyOpt g fuel c r
        = runObligations g fuel c (optObligations r) :=
  fun Pat _ _ g fuel c r => checkNonEmptyOpt_eq_runObligations g fuel c r

-- src/rule.rs `RuleWithNamedFields::filter_fields`: keep the paths whose
-- leading index is `fld` (or the node-level paths when `fld` is `none`),
-- stripped by one level.  Distinct paths with equal heads have distinct
-- tails, so collecting back into an `IndexSet` loses nothing.
def filterFields (fields : Fields) (fld : Option Nat) : Fields :=
  fields.filterMap (fun e =>
    let ps := e.2.filterMap
      (fun path => if path.head? = fld then some path.tail else none)
    if ps.isEmpty then none else some (e.1, ps))

-- src/rule.rs `RuleWithNamedFields::fold` specialized to the
-- `WhitespaceInserter` pass of `insert_whitespace` (src/rule.rs
-- `Folder` defaults for leaves/`Or`/`Opt`; the pass's overridden
-- `fold_concat`/`fold_repeat_many`/`fold_repeat_more` inlined).  `none`
-- propagates the panics of the combinator layer and the
-- `next().unwrap()` of `fold_or` on an empty `Or`.
mutual

def iwGo (w : RuleWithNamedFields Pat) :
    Rule Pat → Fields → Option (RuleWithNamedFields Pat)
  | .Empty, flds => some ⟨Rule.Empty, flds⟩
  | .Eat p, flds => some ⟨Rule.Eat p, flds⟩
  | .Call n, flds => some ⟨Rule.Call n, flds⟩
  | .Concat left right, flds =>
    match iwGo w left (filterFields flds (some 0)) with
    | none => none
    | some l =>
      match add l w with
      | none => none
      | some lw =>
        match iwGo w right (filterFields flds (some 1)) with
        | none => none
        | some r =>
          match add lw r with
          | none => none
          | some res =>
            some ⟨res.rule, fieldsExtend res.fields (filterFields flds none)⟩
  | .Or rules, flds =>
    match iwGoList w rules 0 flds with
    | none => none
    | some [] => none
    | some (first :: rest) =>
      let res := rest.foldl bitor first
      some ⟨res.rule, fieldsExtend res.fields (filterFields flds none)⟩
  | .Opt inner, flds =>
    match iwGo w inner (filterFields flds (some 0)) with
    | none => none
    | some r =>
      let res := r.opt
      some ⟨res.rule, fieldsExtend res.fields (filterFields flds none)⟩
  | .RepeatMany elem none, flds =>
    match iwGo w elem (filterFields flds (some 0)) with
    | none => none
    | some e =>
      match e.repeat_more (some (w, SepKind.Simple)) with
      | none => none
      | some res =>
        some ⟨res.rule, fieldsExtend res.fields (filterFields flds none)⟩
  | .RepeatMany elem (some (s, SepKind.Simple)), flds =>
    match iwGo w elem (filterFields flds (some 0)) with
    | none => none
    | some e =>
      match add w ⟨s, filterFields flds (some 1)⟩ with
      | none => none
      | some s1 =>
        match add s1 w with
        | none => none
        | some s2 =>
          match e.repeat_more (some (s2, SepKind.Simple)) with
          | none => none
          | some res =>
            some ⟨res.rule, fieldsExtend res.fields (filterFields flds none)⟩
  | .RepeatMany elem (some (s, SepKind.Trailing)), flds =>
    match iwGo w elem (filterFields flds (some 0)) with
    | none => none
    | some e =>
      match add w ⟨s, filterFields flds (some 1)⟩ with
      | none => none
      | some s1 =>
        match add s1 w with
        | none => none
        | some s2 =>
          match e.repeat_more (some (s2, SepKind.Trailing)) with
          | none => none
          | some res =>
            some ⟨res.rule, fieldsExtend res.fields (filterFields flds none)⟩
  | .RepeatMore elem none, flds =>
    match iwGo w elem (filterFields flds (some 0)) with
    | none => none
    | some e =>
      match e.repeat_more (some (w, SepKind.Simple)) with
      | none => none
      | some res =>
        some ⟨res.rule, fieldsExtend res.fields (filterFields flds none)⟩
  | .RepeatMore elem (some (s, SepKind.Simple)), flds =>
    match iwGo w elem (filterFields flds (some 0)) with
    | none => none
    | some e =>
      match add w ⟨s, filterFields flds (some 1)⟩ with
      | none => none
      | some s1 =>
        match add s1 w with
        | none => none
        | some s2 =>
          match e.repeat_more (some (s2, SepKind.Simple)) with
          | none => none
          | some res =>
            some ⟨res.rule, fieldsExtend res.fields (filterFields flds none)⟩
  | .RepeatMore elem (some (s, SepKind.Trailing)), flds =>
    match iwGo w elem (filterFields flds (some 0)) with
    | none => none
    | some e =>
      match add w ⟨s, filterFields flds (some 1)⟩ with
      | none => none
      | some s1 =>
        match add s1 w with
        | none => none
        | some s2 =>
          match e.repeat_more (some (s2, SepKind.Simple)) with
          | none => none
          | some rm =>
            match add w ⟨s, filterFields flds (some 1)⟩ with
            | none => none
            | some t1 =>
              match add rm t1.opt with
              | none => none
              | some res =>
                some ⟨res.rule, fieldsExtend res.fields (filterFields flds none)⟩

def iwGoList (w : RuleWithNamedFields Pat) :
    List (Rule Pat) → Nat → Fields → Option (List (RuleWithNamedFields Pat))
  | [], _, _ => some []
  | r :: rest, i, flds =>
    match iwGo w r (filterFields flds (some i)) with
    | none => none
    | some x =>
      match iwGoList w rest (i + 1) flds with
      | none => none
      | some xs => some (x :: xs)

end

/-- src/rule.rs `RuleWithNamedFields::insert_whitespace`: asserts the
whitespace rule carries no fields (modelled as `none`), then folds with
the `WhitespaceInserter`. -/
def insertWhitespace (x : RuleWithNamedFields Pat)
    (w : RuleWithNamedFields Pat) : Option (RuleWithNamedFields Pat) :=
  if w.fields = [] then iwGo w x.rule x.fields else none

/-- C7: with a field-less whitespace rule `W`, `insert_whitespace` turns
`eat(a) + eat(b)` into exactly `(eat(a) + W) + eat(b)` (the single
`Concat` becomes the left-associated three-way chain the `+` operator
builds), and turns `RepeatMany(eat(a), None)` into exactly
`(eat a).repeat_more(Some((W, Simple)))` — a `RepeatMore` with `W` as a
`Simple` separator, the combinator-level encoding that still denotes
zero-or-more. -/
theorem c7_whitespace_insertion_shape :
    ∀ (Pat : Type) (W : RuleWithNamedFields Pat) (a b : Pat),
      W.fields = [] →
      ((add (eat a) (eat b)).bind (fun x => insertWhitespace x W)
          = (add (eat a) W).bind (fun l => add l (eat b)))
      ∧ (((eat a).repeat_many none).bind (fun x => insertWhitespace x W)
          = (eat a).repeat_more (some (W, SepKind.Simple))) := by
  intro Pat W a b hw
  constructor
  · rw [show add (eat a) (eat b)
      = some ⟨Rule.Concat (Rule.Eat a) (Rule.Eat b), ([] : Fields)⟩ from rfl]
    show insertWhitespace ⟨Rule.Concat (Rule.Eat a) (Rule.Eat b), []⟩ W = _
    unfold insertWhitespace
    rw [if_pos hw]
    show (match add (eat a) W with
      | none => none
      | some lw =>
        match add lw (eat b) with
        | none => none
        | some res => some ⟨res.rule, fieldsExtend res.fields []⟩)
      = (add (eat a) W).bind (fun l => add l (eat b))
    cases add (eat a) W with
    | none => rfl
    | some lw =>
      show (match add lw (eat b) with
        | none => none
        | some res => some ⟨res.rule, fieldsExtend res.fields []⟩)
        = add lw (eat b)
      cases add lw (eat b) with
      | none => rfl
      | some res => rfl
  · rw [show (eat a).repeat_many none
      = some ⟨Rule.RepeatMany (Rule.Eat a) none, ([] : Fields)⟩ from rfl]
    show insertWhitespace ⟨Rule.RepeatMany (Rule.Eat a) none, []⟩ W = _
    unfold insertWhitespace
    rw [if_pos hw]
    show (match RuleWithNamedFields.repeat_more ⟨Rule.Eat a, []⟩
        (some (W, SepKind.Simple)) with
      | none => none
      | some res => some ⟨res.rule, fieldsExtend res.fields []⟩)
      = (eat a).repeat_more (some (W, SepKind.Simple))
    unfold RuleWithNamedFields.repeat_more
    dsimp only
    rw [if_pos hw, if_pos hw]
    rfl

/-- Witness for C7 at `W = eat(pAlways)`, `a = pNever`, `b = pThird`. -/
theorem c7_whitespace_insertion_shape_witness :
    ((add (eat pNever) (eat pThird)).bind
        (fun x => insertWhitespace x (eat pAlways))
      = (add (eat pNever) (eat pAlways)).bind (fun l => add l (eat pThird)))
    ∧ (((eat pNever).repeat_many none).bind
        (fun x => insertWhitespace x (eat pAlways))
      = (eat pNever).repeat_more (some (eat pAlways, SepKind.Simple))) :=
  c7_whitespace_insertion_shape TPat (eat pAlways) pNever pThird rfl

end Grammer
